import Mathlib

/-!
# blockchaingo: block, chain and validator

A shallow embedding of `blockchain.go` and the properties of its core:
proof-of-work test (`Block.IsValid`), hashing and mining (`Block.CalculateHash`,
`Block.MineBlock`), chain storage (`Blockchain.AddBlock`,
`Blockchain.GetLatestBlock`), construction (`NewBlockchain`, `NewGenesisBlock`,
`NewBlock`) and the acceptance rules (`Validator.Validate`).

Conventions of the embedding.

* A Go `string` is an immutable sequence of bytes: `len` counts bytes and
  `s[:n]` slices bytes. It is a `List byte` here; the character `0` is byte 48.
* Go `int` values are `Int`; the code does no arithmetic that could overflow.
* A `*Block` is an address into a heap of blocks. The chain stores addresses
  (`[]*Block`), so "the same block" is equality of addresses.
* A run-time panic (slice bounds out of range, index out of range, nil
  dereference) is the `error` outcome of `Except Panic`.
* `time.Now()` is an argument of the constructors.
* The receivers `bc *Blockchain` and `v *Validator` are threaded as values:
  the program has one chain and never compares chain addresses. A validator
  reads its chain when `Validate` is called, so it is built from the chain's
  state at that moment.
* `CalculateHash` calls `b.String()`, which the source does not define, and the
  library function `sha256.Sum256`. Both are fields of a `Hasher`, over which
  every statement about hashing and mining is quantified; `String` encodes the
  block's fields other than `Hash`, as the specification describes it.
* `MineBlock` loops without bound. The draws of `rand.Intn(1000000000)` are a
  stream of numbers below 1000000000, and the loop runs on fuel: the result
  `none` stands for a loop that has not returned within the fuel given.
-/

namespace Blockchaingo

/-- One byte of a Go string. -/
abbrev byte := Fin 256

/-- Go `string`: a sequence of bytes. -/
abbrev GoString := List byte

/-- Go `time.Time`, kept abstract as a number (the core never inspects it). -/
abbrev Time := Int

/-- Go run-time panic. The kinds (slice bounds out of range, index out of
range, nil pointer dereference, negative `Repeat` count) are not told apart. -/
inductive Panic where
  | panic
deriving DecidableEq, Repr

deriving instance DecidableEq for Except

/-- Go `type SmartContract struct { Code string }`. -/
structure SmartContract where
  Code : GoString
deriving DecidableEq, Repr

/-- Go `type Transaction struct { Sender, Receiver string; Amount float64 }`.
`Amount` is the 64-bit IEEE-754 pattern of the `float64`; the code never
computes with it. -/
structure Transaction where
  Sender : GoString
  Receiver : GoString
  Amount : Nat
deriving DecidableEq, Repr

/-- Go `type Block struct`. `Data` and `Contracts` are slices; the core only
takes `len(b.Data)`, so a nil slice and an empty one are both `[]`. -/
structure Block where
  Index : Int
  Data : List Transaction
  Contracts : List SmartContract
  Hash : GoString
  PrevHash : GoString
  Timestamp : Time
  Nonce : Int
deriving DecidableEq, Repr

/-- A `*Block`: the address of a block in the heap. An address that holds no
block behaves as the nil pointer. -/
abbrev BlockPtr := Nat

/-- The blocks allocated so far; the block at address `p` is the `p`-th one. -/
abbrev Heap := List Block

/-- Dereference `*p`; panics when `p` holds no block. -/
def Heap.load (h : Heap) (p : BlockPtr) : Except Panic Block :=
  match h.get? p with
  | some b => .ok b
  | none => .error .panic

/-- Allocation `&Block{...}`: the new block gets a fresh address and no
existing block changes. -/
def Heap.alloc (h : Heap) (b : Block) : Heap × BlockPtr :=
  (h ++ [b], h.length)

/-- Go `type Blockchain struct { Blocks []*Block; Difficulty int }`. -/
structure Blockchain where
  Blocks : List BlockPtr
  Difficulty : Int
deriving DecidableEq, Repr

/-- Go `strings.Repeat("0", count)` for a count that is not negative. -/
def repeatZero (count : Int) : GoString :=
  List.replicate count.toNat 48

/-- Go slice expression `s[:n]`: panics unless `0 <= n <= len(s)`. -/
def sliceTo (s : GoString) (n : Int) : Except Panic GoString :=
  if 0 ≤ n ∧ n ≤ (s.length : Int) then .ok (s.take n.toNat) else .error .panic

/-- Go `NewGenesisBlock`: the block value it builds (`Contracts` is left at
its zero value). -/
def NewGenesisBlock (now : Time) : Block :=
  { Index := 0, Data := [], Contracts := [], Hash := [], PrevHash := [],
    Timestamp := now, Nonce := 0 }

/-- Go `NewBlockchain`: allocates the genesis block and returns the chain
holding its address, with difficulty 3. -/
def NewBlockchain (h : Heap) (now : Time) : Heap × Blockchain :=
  let r := h.alloc (NewGenesisBlock now)
  (r.1, { Blocks := [r.2], Difficulty := 3 })

/-- Go `NewBlock`: allocates an unmined block and returns its address. -/
def NewBlock (h : Heap) (data : List Transaction) (contracts : List SmartContract)
    (prevHash : GoString) (now : Time) : Heap × BlockPtr :=
  h.alloc { Index := 0, Data := data, Contracts := contracts, Hash := [],
            PrevHash := prevHash, Timestamp := now, Nonce := 0 }

/-- Go `(b *Block) IsValid(difficulty)`:
`b.Hash[:difficulty] == strings.Repeat("0", difficulty)`.
The slice expression panics when `difficulty` is negative or exceeds
`len(b.Hash)`; `strings.Repeat` panics on a negative count as well. -/
def IsValid (h : Heap) (b : BlockPtr) (difficulty : Int) : Except Panic Bool := do
  let blk ← h.load b
  let pre ← sliceTo blk.Hash difficulty
  pure (decide (pre = repeatZero difficulty))

/-- Go `(bc *Blockchain) AddBlock(b)`: `bc.Blocks = append(bc.Blocks, b)`. -/
def AddBlock (bc : Blockchain) (b : BlockPtr) : Blockchain :=
  { bc with Blocks := bc.Blocks ++ [b] }

/-- Go `(bc *Blockchain) GetLatestBlock()`: `bc.Blocks[len(bc.Blocks)-1]`;
the index is out of range exactly when the chain has no block. -/
def GetLatestBlock (bc : Blockchain) : Except Panic BlockPtr :=
  match bc.Blocks.getLast? with
  | some p => .ok p
  | none => .error .panic

/-- Go `type Validator struct { Blockchain *Blockchain }`. -/
structure Validator where
  Blockchain : Blockchain
deriving DecidableEq, Repr

/-- Go `NewValidator`. -/
def NewValidator (blockchain : Blockchain) : Validator :=
  { Blockchain := blockchain }

/-- Go `(v *Validator) Validate(block) error`. The result `none` is the nil
error; `some msg` is `fmt.Errorf(msg)`. -/
def Validate (h : Heap) (v : Validator) (block : BlockPtr) :
    Except Panic (Option String) := do
  if !(← IsValid h block v.Blockchain.Difficulty) then
    return some "Invalid block hash"
  let blk ← h.load block
  let latest ← h.load (← GetLatestBlock v.Blockchain)
  if blk.PrevHash ≠ latest.Hash then
    return some "Invalid previous hash"
  if blk.Data.length = 0 then
    return some "Empty block data"
  if blk.Nonce = 0 then
    return some "Invalid nonce"
  return none

/-! ## Hashing and mining -/

/-- The fields of a block that its content serialization covers: every field
but `Hash`. -/
structure Content where
  Index : Int
  Data : List Transaction
  Contracts : List SmartContract
  PrevHash : GoString
  Timestamp : Time
  Nonce : Int
deriving DecidableEq, Repr

/-- The value of `sha256.Sum256`: a `[32]byte`. -/
abbrev Digest := { l : List byte // l.length = 32 }

/-- What `CalculateHash` takes from outside the file: the encoding behind
`b.String()` and the library function `crypto/sha256.Sum256`. -/
structure Hasher where
  encode : Content → GoString
  Sum256 : GoString → Digest

/-- The content of a block. -/
def Block.content (b : Block) : Content :=
  { Index := b.Index, Data := b.Data, Contracts := b.Contracts, PrevHash := b.PrevHash,
    Timestamp := b.Timestamp, Nonce := b.Nonce }

/-- Modelled from the spec: the method `(b *Block) String()`, which
`CalculateHash` calls and the source does not define. The spec describes it as
a deterministic encoding of index, transactions, contracts, previous hash,
creation time and nonce, the exact encoding being an implementation choice:
it is `encode` applied to these six fields, and does not read `Hash`. -/
def Block.String (e : Hasher) (b : Block) : GoString :=
  e.encode b.content

/-- One lower-case hexadecimal digit, as a character. -/
def hexDigit (n : Nat) : byte :=
  if n < 10 then Fin.ofNat (48 + n) else Fin.ofNat (87 + n)

/-- Go `fmt.Sprintf("%x", bytes)`: two lower-case hexadecimal digits a byte. -/
def sprintfHex : List byte → GoString
  | [] => []
  | x :: xs => hexDigit (x.val / 16) :: hexDigit (x.val % 16) :: sprintfHex xs

/-- Go `(b *Block) CalculateHash()`:
`fmt.Sprintf("%x", sha256.Sum256([]byte(b.String())))`. It reads the block and
writes nothing. -/
def CalculateHash (e : Hasher) (h : Heap) (b : BlockPtr) : Except Panic GoString := do
  let blk ← h.load b
  pure (sprintfHex (e.Sum256 (blk.String e)).val)

/-- A field assignment through a `*Block`, `b.f = v`: panics when `p` holds
no block, and changes no other address. -/
def Heap.store (h : Heap) (p : BlockPtr) (f : Block → Block) : Except Panic Heap :=
  match h.get? p with
  | some b => .ok (h.set p (f b))
  | none => .error .panic

/-- The loop of `MineBlock`, run for at most `fuel` iterations. The `k`-th
call of `rand.Intn(1000000000)` returns `rnd k`, a value in `[0, 1000000000)`.
The result `none` means the loop is still running after `fuel` iterations;
`some (h, n)` is the heap on return and the number of nonces drawn. -/
def mineLoop (e : Hasher) (rnd : Nat → Fin 1000000000) (b : BlockPtr) (difficulty : Int) :
    Nat → Nat → Heap → Except Panic (Option (Heap × Nat))
  | 0, _, _ => .ok none
  | fuel + 1, k, h => do
    let h1 ← h.store b (fun blk => { blk with Nonce := ((rnd k).val : Int) })
    let hash ← CalculateHash e h1 b
    let h2 ← h1.store b (fun blk => { blk with Hash := hash })
    if ← IsValid h2 b difficulty then
      return some (h2, k + 1)
    mineLoop e rnd b difficulty fuel (k + 1) h2

/-- Go `(b *Block) MineBlock(difficulty)`: the loop started at the first
draw. -/
def MineBlock (e : Hasher) (rnd : Nat → Fin 1000000000) (fuel : Nat) (h : Heap)
    (b : BlockPtr) (difficulty : Int) : Except Panic (Option (Heap × Nat)) :=
  mineLoop e rnd b difficulty fuel 0 h

/-- The state of a run: the heap of blocks and the chain. -/
structure State where
  heap : Heap
  chain : Blockchain
deriving DecidableEq, Repr

/-- The block after one iteration of the mining loop:
`b.Nonce = nonce; b.Hash = b.CalculateHash()`. -/
def Block.attempt (e : Hasher) (blk : Block) (nonce : Int) : Block :=
  { blk with
    Nonce := nonce
    Hash := sprintfHex (e.Sum256 (Block.String e { blk with Nonce := nonce })).val }

/-! ## Runs

The states a program reaches from a starting state with the operations of the
file: `NewBlock`, `MineBlock` and `AddBlock`. -/

/-- States reached from `s0` by calls of `NewBlock`, of `MineBlock` on any
block when the call returns, and of `AddBlock` with any block, validated or
not. -/
inductive Reachable (e : Hasher) (s0 : State) : State → Prop where
  | start : Reachable e s0 s0
  | newBlock (s : State) (data : List Transaction) (contracts : List SmartContract)
      (prevHash : GoString) (now : Time) :
      Reachable e s0 s →
      Reachable e s0 { heap := (NewBlock s.heap data contracts prevHash now).1, chain := s.chain }
  | mineBlock (s : State) (rnd : Nat → Fin 1000000000) (fuel : Nat) (b : BlockPtr) (d : Int)
      (h' : Heap) (n : Nat) :
      Reachable e s0 s →
      MineBlock e rnd fuel s.heap b d = .ok (some (h', n)) →
      Reachable e s0 { heap := h', chain := s.chain }
  | addBlock (s : State) (b : BlockPtr) :
      Reachable e s0 s →
      Reachable e s0 { heap := s.heap, chain := AddBlock s.chain b }

/-- States reached from `s0` by calls of `NewBlock`, of `MineBlock` on any
block when the call returns, and of `AddBlock` on a block for which `Validate`
has just succeeded against the current chain. -/
inductive ValidatedReachable (e : Hasher) (s0 : State) : State → Prop where
  | start : ValidatedReachable e s0 s0
  | newBlock (s : State) (data : List Transaction) (contracts : List SmartContract)
      (prevHash : GoString) (now : Time) :
      ValidatedReachable e s0 s →
      ValidatedReachable e s0
        { heap := (NewBlock s.heap data contracts prevHash now).1, chain := s.chain }
  | mineBlock (s : State) (rnd : Nat → Fin 1000000000) (fuel : Nat) (b : BlockPtr) (d : Int)
      (h' : Heap) (n : Nat) :
      ValidatedReachable e s0 s →
      MineBlock e rnd fuel s.heap b d = .ok (some (h', n)) →
      ValidatedReachable e s0 { heap := h', chain := s.chain }
  | addBlock (s : State) (b : BlockPtr) :
      ValidatedReachable e s0 s →
      Validate s.heap (NewValidator s.chain) b = .ok none →
      ValidatedReachable e s0 { heap := s.heap, chain := AddBlock s.chain b }

/-- The runs of `ValidatedReachable` in which, in addition, `MineBlock` is
never called on a block that is already in the chain: the specification's rule
that an appended block is never mutated, which the code leaves to the
caller. -/
inductive AppendOnlyReachable (e : Hasher) (s0 : State) : State → Prop where
  | start : AppendOnlyReachable e s0 s0
  | newBlock (s : State) (data : List Transaction) (contracts : List SmartContract)
      (prevHash : GoString) (now : Time) :
      AppendOnlyReachable e s0 s →
      AppendOnlyReachable e s0
        { heap := (NewBlock s.heap data contracts prevHash now).1, chain := s.chain }
  | mineBlock (s : State) (rnd : Nat → Fin 1000000000) (fuel : Nat) (b : BlockPtr) (d : Int)
      (h' : Heap) (n : Nat) :
      AppendOnlyReachable e s0 s →
      b ∉ s.chain.Blocks →
      MineBlock e rnd fuel s.heap b d = .ok (some (h', n)) →
      AppendOnlyReachable e s0 { heap := h', chain := s.chain }
  | addBlock (s : State) (b : BlockPtr) :
      AppendOnlyReachable e s0 s →
      Validate s.heap (NewValidator s.chain) b = .ok none →
      AppendOnlyReachable e s0 { heap := s.heap, chain := AddBlock s.chain b }

/-- The link between a block at address `q` and its successor at address `p`
in the chain: both are allocated, the successor's `PrevHash` is the
predecessor's `Hash`, and the successor has a transaction and a nonce other
than 0. -/
def Linked (h : Heap) (q p : BlockPtr) : Prop :=
  ∃ bq bp, h.load q = .ok bq ∧ h.load p = .ok bp ∧
    bp.PrevHash = bq.Hash ∧ bp.Data ≠ [] ∧ bp.Nonce ≠ 0

/-! ## Sample data

A chain as `NewBlockchain` leaves it (genesis at address 0, difficulty 3)
and a few candidate blocks, used to evaluate the definitions. -/

/-- The transaction `{Sender: "Alice", Receiver: "Bob", Amount: 5.0}`. -/
def sampleTx : Transaction :=
  { Sender := [65, 108, 105, 99, 101], Receiver := [66, 111, 98],
    Amount := 0x4014000000000000 }

/-- A mined block: hash `"000a"`, previous hash `""`, one transaction,
nonce 7. -/
def minedBlock : Block :=
  { Index := 0, Data := [sampleTx], Contracts := [], Hash := [48, 48, 48, 97],
    PrevHash := [], Timestamp := 1, Nonce := 7 }

/-- A block with hash `"0a00"`, which fails difficulty 3, and no
transaction. -/
def badHashBlock : Block :=
  { Index := 0, Data := [], Contracts := [], Hash := [48, 97, 48, 48],
    PrevHash := [], Timestamp := 1, Nonce := 7 }

/-- A block like `minedBlock` whose previous hash is `"ff"`. -/
def badLinkBlock : Block :=
  { minedBlock with PrevHash := [102, 102] }

/-- A block like `minedBlock` with no transaction. -/
def emptyBlock : Block :=
  { minedBlock with Data := [] }

/-- A block like `minedBlock` with nonce 0. -/
def zeroNonceBlock : Block :=
  { minedBlock with Nonce := 0 }

/-- The block `NewBlock` builds from the one transaction `sampleTx`, no
contract and the empty previous hash, before any mining: empty hash, nonce 0. -/
def unminedBlock : Block :=
  { Index := 0, Data := [sampleTx], Contracts := [], Hash := [], PrevHash := [],
    Timestamp := 1, Nonce := 0 }

/-- A block with no transaction, hash `"000a"` and previous hash `"ff"`. -/
def emptyBadLinkBlock : Block :=
  { minedBlock with Data := [], PrevHash := [102, 102] }

/-- A chain value with no block at all (not one `NewBlockchain` returns). -/
def noBlockChain : Blockchain :=
  { Blocks := [], Difficulty := 3 }

/-- The heap: genesis at 0, then the sample blocks at 1 to 6. -/
def sampleHeap : Heap :=
  [NewGenesisBlock 0, minedBlock, badHashBlock, badLinkBlock, emptyBlock, zeroNonceBlock,
   emptyBadLinkBlock]

/-- The chain `NewBlockchain` returns on the empty heap. -/
def sampleChain : Blockchain :=
  { Blocks := [0], Difficulty := 3 }

/-- A stand-in for the hasher, used to evaluate the definitions (it is not
SHA-256): the encoding is the low byte of the nonce, and the digest is 32
copies of the low four bits of that byte. Nonces 0 and 16 give the hash
`"00...0"`, nonce 5 gives `"0505...05"`. -/
def sampleHasher : Hasher :=
  { encode := fun c => [Fin.ofNat c.Nonce.toNat],
    Sum256 := fun m => ⟨List.replicate 32 (Fin.ofNat (m.headD 0).val % 16), by simp⟩ }

/-- A stream of draws: 5, 7, then 16 for ever. -/
def sampleDraws : Nat → Fin 1000000000 :=
  fun k => if k = 0 then 5 else if k = 1 then 7 else 16

/-- A stream of draws that starts with 0. -/
def zeroDraws : Nat → Fin 1000000000 :=
  fun _ => 0

/-- The heap with the genesis block at 0 and `unminedBlock` at 1. -/
def unminedHeap : Heap :=
  [NewGenesisBlock 0, unminedBlock]

/-- The heap `unminedHeap` after mining the block at 1 with `sampleHasher`
and `sampleDraws` at difficulty 3: the third draw, 16, is accepted. -/
def minedHeap : Heap :=
  [NewGenesisBlock 0, unminedBlock.attempt sampleHasher 16]

/-- The heap `unminedHeap` after mining the block at 1 with `sampleHasher`
and `zeroDraws` at difficulty 3: the first draw, 0, is accepted. -/
def zeroMinedHeap : Heap :=
  [NewGenesisBlock 0, unminedBlock.attempt sampleHasher 0]

/-- The heap `minedHeap` after mining the genesis block at 0 as well, with
`sampleHasher` and `sampleDraws` at difficulty 3: its hash is now 64 zeros. -/
def reminedHeap : Heap :=
  [(NewGenesisBlock 0).attempt sampleHasher 16, unminedBlock.attempt sampleHasher 16]

/-- The state right after `NewBlockchain` on the empty heap at time 0. -/
def createdState : State :=
  { heap := (NewBlockchain [] 0).1, chain := (NewBlockchain [] 0).2 }

/-! ## Auxiliary facts -/

/-- Loading succeeds exactly on the addresses that hold a block. -/
theorem Heap.load_ok_iff (h : Heap) (p : BlockPtr) (b : Block) :
    h.load p = .ok b ↔ h.get? p = some b := by
  unfold Heap.load
  cases h.get? p <;> simp

/-- The latest block is the last entry of `Blocks`. -/
theorem GetLatestBlock_ok_iff (bc : Blockchain) (p : BlockPtr) :
    GetLatestBlock bc = .ok p ↔ bc.Blocks.getLast? = some p := by
  unfold GetLatestBlock
  cases bc.Blocks.getLast? <;> simp

/-- A chain has a latest block exactly when it is non-empty; on a chain with
no block `GetLatestBlock` panics (index out of range). -/
theorem GetLatestBlock_ok_iff_nonempty (bc : Blockchain) :
    (∃ tip, GetLatestBlock bc = .ok tip) ↔ bc.Blocks ≠ [] := by
  unfold GetLatestBlock
  cases hb : bc.Blocks with
  | nil => simp
  | cons x xs =>
    have hne : (x :: xs) ≠ [] := by simp
    simp [List.getLast?_eq_getLast _ hne]

/-- The five outcomes of `Validate` on the sample chain: accepted, and one
rejection per rule. -/
theorem Validate_sample_outcomes :
    Validate sampleHeap (NewValidator sampleChain) 1 = .ok none ∧
    Validate sampleHeap (NewValidator sampleChain) 2 = .ok (some "Invalid block hash") ∧
    Validate sampleHeap (NewValidator sampleChain) 3 = .ok (some "Invalid previous hash") ∧
    Validate sampleHeap (NewValidator sampleChain) 4 = .ok (some "Empty block data") ∧
    Validate sampleHeap (NewValidator sampleChain) 5 = .ok (some "Invalid nonce") := by
  decide

/-- Taking `n` elements gives `n` copies of `a` exactly when the first `n`
positions all hold `a`. -/
theorem take_eq_replicate_iff {α : Type} (a : α) (s : List α) (n : Nat) (hn : n ≤ s.length) :
    s.take n = List.replicate n a ↔ ∀ i : Nat, i < n → s.get? i = some a := by
  induction s generalizing n with
  | nil =>
    have : n = 0 := by simpa using hn
    subst this
    simp
  | cons x xs ih =>
    cases n with
    | zero => simp
    | succ m =>
      have hm : m ≤ xs.length := by simpa using hn
      simp only [List.take_succ_cons, List.replicate_succ, List.cons.injEq, ih m hm]
      constructor
      · rintro ⟨rfl, hrest⟩ i hi
        cases i with
        | zero => simp
        | succ j => simpa using hrest j (by omega)
      · intro hall
        refine ⟨by simpa using hall 0 (by omega), fun i hi => ?_⟩
        simpa using hall (i + 1) (by omega)

/-- The body of `IsValid` on an allocated block. -/
theorem IsValid_eq (h : Heap) (b : BlockPtr) (blk : Block) (d : Int)
    (hblk : h.load b = .ok blk) :
    IsValid h b d =
      if 0 ≤ d ∧ d ≤ (blk.Hash.length : Int)
      then .ok (decide (blk.Hash.take d.toNat = repeatZero d)) else .error .panic := by
  unfold IsValid sliceTo
  rw [hblk]
  split <;> simp [bind, Except.bind, pure, Except.pure, *]

/-- The body of `Validate` once the candidate and the chain tip are loaded. -/
theorem Validate_eq (h : Heap) (v : Validator) (block tip : BlockPtr) (blk latest : Block)
    (hblk : h.load block = .ok blk) (htip : GetLatestBlock v.Blockchain = .ok tip)
    (hlatest : h.load tip = .ok latest) :
    Validate h v block =
      match IsValid h block v.Blockchain.Difficulty with
      | .error e => .error e
      | .ok false => .ok (some "Invalid block hash")
      | .ok true =>
        if blk.PrevHash ≠ latest.Hash then .ok (some "Invalid previous hash")
        else if blk.Data.length = 0 then .ok (some "Empty block data")
        else if blk.Nonce = 0 then .ok (some "Invalid nonce")
        else .ok none := by
  unfold Validate
  cases hv : IsValid h block v.Blockchain.Difficulty with
  | error e => rfl
  | ok r =>
    cases r with
    | false => rfl
    | true =>
      simp only [bind, Except.bind, pure, Except.pure, hblk, htip, hlatest]
      by_cases h1 : blk.PrevHash = latest.Hash
      · by_cases h2 : blk.Data.length = 0
        · simp [h1, h2]
        · by_cases h3 : blk.Nonce = 0
          · simp [h1, h2, h3]
          · simp [h1, h2, h3]
      · simp [h1]

/-! ## The validator -/

/-- C1: for a non-empty chain (its latest block is `tip`) and a candidate block
whose hash has at least `Difficulty` bytes, `Validate` returns nil exactly
when the four rules hold: `IsValid(Difficulty)` is true, `PrevHash` equals the
hash of the latest block, `Data` is non-empty and `Nonce` is not 0. -/
theorem Validate_nil_iff_four_rules (h : Heap) (v : Validator) (block tip : BlockPtr)
    (blk latest : Block)
    (hblk : h.load block = .ok blk)
    (htip : GetLatestBlock v.Blockchain = .ok tip)
    (hlatest : h.load tip = .ok latest)
    (_hlen : v.Blockchain.Difficulty ≤ (blk.Hash.length : Int)) :
    Validate h v block = .ok none ↔
      (IsValid h block v.Blockchain.Difficulty = .ok true ∧
        blk.PrevHash = latest.Hash ∧ blk.Data ≠ [] ∧ blk.Nonce ≠ 0) := by
  rw [Validate_eq h v block tip blk latest hblk htip hlatest]
  cases hv : IsValid h block v.Blockchain.Difficulty with
  | error e => simp
  | ok r =>
    cases r with
    | false => simp
    | true =>
      by_cases h1 : blk.PrevHash = latest.Hash <;>
      by_cases h2 : blk.Data = [] <;>
      by_cases h3 : blk.Nonce = 0 <;> simp [h1, h2, h3]

/-- Witness for C1 on the sample chain and the mined sample block, which the
validator accepts. -/
theorem Validate_nil_iff_four_rules_witness :
    (sampleHeap.load 1 = .ok minedBlock ∧
      GetLatestBlock (NewValidator sampleChain).Blockchain = .ok 0 ∧
      sampleHeap.load 0 = .ok (NewGenesisBlock 0) ∧
      (NewValidator sampleChain).Blockchain.Difficulty ≤ (minedBlock.Hash.length : Int)) ∧
    (Validate sampleHeap (NewValidator sampleChain) 1 = .ok none ↔
      (IsValid sampleHeap 1 (NewValidator sampleChain).Blockchain.Difficulty = .ok true ∧
        minedBlock.PrevHash = (NewGenesisBlock 0).Hash ∧ minedBlock.Data ≠ [] ∧
        minedBlock.Nonce ≠ 0)) ∧
    Validate sampleHeap (NewValidator sampleChain) 1 = .ok none :=
  ⟨⟨by decide, by decide, by decide, by decide⟩,
   Validate_nil_iff_four_rules sampleHeap (NewValidator sampleChain) 1 0 minedBlock
     (NewGenesisBlock 0) (by decide) (by decide) (by decide) (by decide),
   by decide⟩

/-- C2: for a non-empty chain and a candidate whose hash has at least
`Difficulty` bytes, `Validate` reports the first failing rule in the order
proof-of-work, linkage, payload, nonce: "Invalid block hash" when `IsValid`
is false; otherwise "Invalid previous hash" when `PrevHash` differs from the
hash of the latest block; otherwise "Empty block data" when `Data` is empty;
otherwise "Invalid nonce" when `Nonce` is 0. For a non-negative difficulty
`IsValid` does return true or false, so the cases are exhaustive; and the four
messages are pairwise distinct. -/
theorem Validate_first_failing_rule (h : Heap) (v : Validator) (block tip : BlockPtr)
    (blk latest : Block)
    (hblk : h.load block = .ok blk)
    (htip : GetLatestBlock v.Blockchain = .ok tip)
    (hlatest : h.load tip = .ok latest)
    (hlen : v.Blockchain.Difficulty ≤ (blk.Hash.length : Int)) :
    (IsValid h block v.Blockchain.Difficulty = .ok false →
      Validate h v block = .ok (some "Invalid block hash")) ∧
    (IsValid h block v.Blockchain.Difficulty = .ok true → blk.PrevHash ≠ latest.Hash →
      Validate h v block = .ok (some "Invalid previous hash")) ∧
    (IsValid h block v.Blockchain.Difficulty = .ok true → blk.PrevHash = latest.Hash →
      blk.Data = [] → Validate h v block = .ok (some "Empty block data")) ∧
    (IsValid h block v.Blockchain.Difficulty = .ok true → blk.PrevHash = latest.Hash →
      blk.Data ≠ [] → blk.Nonce = 0 → Validate h v block = .ok (some "Invalid nonce")) ∧
    (0 ≤ v.Blockchain.Difficulty →
      IsValid h block v.Blockchain.Difficulty = .ok true ∨
      IsValid h block v.Blockchain.Difficulty = .ok false) ∧
    ("Invalid block hash" ≠ "Invalid previous hash" ∧
      "Invalid block hash" ≠ "Empty block data" ∧
      "Invalid block hash" ≠ "Invalid nonce" ∧
      "Invalid previous hash" ≠ "Empty block data" ∧
      "Invalid previous hash" ≠ "Invalid nonce" ∧
      "Empty block data" ≠ "Invalid nonce") := by
  rw [Validate_eq h v block tip blk latest hblk htip hlatest]
  refine ⟨?_, ?_, ?_, ?_, ?_, by decide⟩
  · intro hv; rw [hv]
  · intro hv h1; rw [hv]; simp [h1]
  · intro hv h1 h2; rw [hv]; simp [h1, h2]
  · intro hv h1 h2 h3; rw [hv]; simp [h1, h2, h3]
  · intro h0
    rw [IsValid_eq h block blk _ hblk, if_pos ⟨h0, hlen⟩]
    cases decide (blk.Hash.take v.Blockchain.Difficulty.toNat
      = repeatZero v.Blockchain.Difficulty) <;> simp

/-- Witness for C2 on the sample chain and the sample block whose hash
`"0a00"` fails difficulty 3: the report is "Invalid block hash". -/
theorem Validate_first_failing_rule_witness :
    (sampleHeap.load 2 = .ok badHashBlock ∧
      GetLatestBlock (NewValidator sampleChain).Blockchain = .ok 0 ∧
      sampleHeap.load 0 = .ok (NewGenesisBlock 0) ∧
      (NewValidator sampleChain).Blockchain.Difficulty ≤ (badHashBlock.Hash.length : Int) ∧
      IsValid sampleHeap 2 (NewValidator sampleChain).Blockchain.Difficulty = .ok false) ∧
    Validate sampleHeap (NewValidator sampleChain) 2 = .ok (some "Invalid block hash") :=
  ⟨⟨by decide, by decide, by decide, by decide, by decide⟩,
   (Validate_first_failing_rule sampleHeap (NewValidator sampleChain) 2 0 badHashBlock
     (NewGenesisBlock 0) (by decide) (by decide) (by decide) (by decide)).1 (by decide)⟩

/-! ## The proof-of-work test -/

/-- C3: for a block and a difficulty `d` with `0 <= d <= len(Hash)`, `IsValid(d)`
returns (no panic), and it returns true exactly when each of the first `d`
bytes of `Hash` is the character `0` (byte 48). -/
theorem IsValid_iff_leading_zeros (h : Heap) (b : BlockPtr) (blk : Block) (d : Int)
    (hblk : h.load b = .ok blk) (h0 : 0 ≤ d) (hd : d ≤ (blk.Hash.length : Int)) :
    (IsValid h b d = .ok true ∨ IsValid h b d = .ok false) ∧
    (IsValid h b d = .ok true ↔
      ∀ i : Nat, (i : Int) < d → blk.Hash.get? i = some 48) := by
  rw [IsValid_eq h b blk d hblk, if_pos ⟨h0, hd⟩]
  have hn : d.toNat ≤ blk.Hash.length := by omega
  have key := take_eq_replicate_iff (48 : byte) blk.Hash d.toNat hn
  constructor
  · cases decide (blk.Hash.take d.toNat = repeatZero d) <;> simp
  · simp only [Except.ok.injEq, decide_eq_true_eq, repeatZero, key]
    constructor
    · intro hall i hi
      exact hall i (by omega)
    · intro hall i hi
      exact hall i (by omega)

/-- Witness for C3: the sample block with hash `"000a"` at difficulty 3. -/
theorem IsValid_iff_leading_zeros_witness :
    (sampleHeap.load 1 = .ok minedBlock ∧ (0 : Int) ≤ 3 ∧
      (3 : Int) ≤ (minedBlock.Hash.length : Int)) ∧
    ((IsValid sampleHeap 1 3 = .ok true ∨ IsValid sampleHeap 1 3 = .ok false) ∧
      (IsValid sampleHeap 1 3 = .ok true ↔
        ∀ i : Nat, (i : Int) < 3 → minedBlock.Hash.get? i = some 48)) ∧
    IsValid sampleHeap 1 3 = .ok true :=
  ⟨⟨by decide, by decide, by decide⟩,
   IsValid_iff_leading_zeros sampleHeap 1 minedBlock 3 (by decide) (by decide) (by decide),
   by decide⟩

/-- On an allocated block whose hash has fewer than `d` bytes, `IsValid(d)`
panics: the slice `b.Hash[:d]` is out of range. -/
theorem IsValid_short_hash_panics (h : Heap) (b : BlockPtr) (blk : Block) (d : Int)
    (hblk : h.load b = .ok blk) (hd : (blk.Hash.length : Int) < d) :
    IsValid h b d = .error .panic := by
  rw [IsValid_eq h b blk d hblk, if_neg]
  omega

/-- C4: on a block with the empty hash (as `NewBlock` leaves it),
`IsValid(3)` does not return false: the slice `b.Hash[:3]` is out of range and
the call panics. The same happens for the hash `"0a"` of two bytes. -/
theorem IsValid_unmined_panics :
    unminedBlock.Hash = [] ∧
    IsValid [unminedBlock] 0 3 = .error .panic ∧
    IsValid [unminedBlock] 0 3 ≠ .ok false ∧
    IsValid [{ unminedBlock with Hash := [48, 97] }] 0 3 = .error .panic := by
  decide

/-- A freshly allocated block is found at the address `alloc` returns. -/
theorem Heap.load_alloc (h : Heap) (b : Block) :
    (h.alloc b).1.load (h.alloc b).2 = .ok b := by
  simp [Heap.alloc, Heap.load]

/-- Validating a never-mined block against a fresh chain panics, whatever the
heap, the clock and the block's content. -/
theorem Validate_fresh_block_panics (h : Heap) (now now2 : Time) (data : List Transaction)
    (contracts : List SmartContract) (prevHash : GoString) :
    Validate (NewBlock (NewBlockchain h now).1 data contracts prevHash now2).1
      (NewValidator (NewBlockchain h now).2)
      (NewBlock (NewBlockchain h now).1 data contracts prevHash now2).2 = .error .panic := by
  have hv := IsValid_short_hash_panics
    (NewBlock (NewBlockchain h now).1 data contracts prevHash now2).1
    (NewBlock (NewBlockchain h now).1 data contracts prevHash now2).2
    _ 3 (Heap.load_alloc _ _) (by simp)
  unfold Validate
  simp only [NewValidator, NewBlockchain]
  simp only [NewBlockchain] at hv
  rw [hv]
  rfl

/-- C5: on the chain `NewBlockchain` creates (difficulty 3) and the block
`NewBlock` builds from one transaction and the previous hash `""`, never mined,
`Validate` does not return the "Invalid block hash" rejection: it panics in
`IsValid` on the empty hash. -/
theorem Validate_unmined_panics :
    (NewBlockchain [] 0).2.Difficulty = 3 ∧
    (NewBlock (NewBlockchain [] 0).1 [sampleTx] [] [] 1).1.load
      (NewBlock (NewBlockchain [] 0).1 [sampleTx] [] [] 1).2 = .ok unminedBlock ∧
    Validate (NewBlock (NewBlockchain [] 0).1 [sampleTx] [] [] 1).1
      (NewValidator (NewBlockchain [] 0).2)
      (NewBlock (NewBlockchain [] 0).1 [sampleTx] [] [] 1).2 = .error .panic ∧
    Validate (NewBlock (NewBlockchain [] 0).1 [sampleTx] [] [] 1).1
      (NewValidator (NewBlockchain [] 0).2)
      (NewBlock (NewBlockchain [] 0).1 [sampleTx] [] [] 1).2
        ≠ .ok (some "Invalid block hash") := by
  decide

/-- C6, as stated, fails: a block with no transaction whose hash `"0a00"`
misses difficulty 3 is rejected with "Invalid block hash", and one whose hash
`"000a"` meets it but whose previous hash is `"ff"` is rejected with
"Invalid previous hash"; neither gets "Empty block data". On a chain value
without any block `Validate` panics. -/
theorem Validate_empty_payload_counterexample :
    (sampleHeap.load 2 = .ok badHashBlock ∧ badHashBlock.Data = [] ∧
      Validate sampleHeap (NewValidator sampleChain) 2 = .ok (some "Invalid block hash") ∧
      Validate sampleHeap (NewValidator sampleChain) 2 ≠ .ok (some "Empty block data")) ∧
    (sampleHeap.load 6 = .ok emptyBadLinkBlock ∧ emptyBadLinkBlock.Data = [] ∧
      IsValid sampleHeap 6 sampleChain.Difficulty = .ok true ∧
      Validate sampleHeap (NewValidator sampleChain) 6 = .ok (some "Invalid previous hash") ∧
      Validate sampleHeap (NewValidator sampleChain) 6 ≠ .ok (some "Empty block data")) ∧
    (sampleHeap.load 4 = .ok emptyBlock ∧ emptyBlock.Data = [] ∧
      Validate sampleHeap (NewValidator noBlockChain) 4 = .error .panic) := by
  decide

/-- C6, amended: for a non-empty chain and a candidate block with no
transaction whose hash has at least `Difficulty` bytes, `Validate` never
returns nil and reports the first failing rule: "Invalid block hash" when
`IsValid` is false; otherwise "Invalid previous hash" when `PrevHash` differs
from the hash of the latest block; otherwise "Empty block data", whatever the
nonce. For a non-negative difficulty `IsValid` does return true or false, so
the three cases are exhaustive. -/
theorem Validate_empty_payload (h : Heap) (v : Validator) (block tip : BlockPtr)
    (blk latest : Block)
    (hblk : h.load block = .ok blk)
    (htip : GetLatestBlock v.Blockchain = .ok tip)
    (hlatest : h.load tip = .ok latest)
    (hdata : blk.Data = [])
    (hlen : v.Blockchain.Difficulty ≤ (blk.Hash.length : Int)) :
    Validate h v block ≠ .ok none ∧
    (IsValid h block v.Blockchain.Difficulty = .ok false →
      Validate h v block = .ok (some "Invalid block hash")) ∧
    (IsValid h block v.Blockchain.Difficulty = .ok true → blk.PrevHash ≠ latest.Hash →
      Validate h v block = .ok (some "Invalid previous hash")) ∧
    (IsValid h block v.Blockchain.Difficulty = .ok true → blk.PrevHash = latest.Hash →
      Validate h v block = .ok (some "Empty block data")) ∧
    (Validate h v block = .ok (some "Empty block data") ↔
      (IsValid h block v.Blockchain.Difficulty = .ok true ∧ blk.PrevHash = latest.Hash)) ∧
    (0 ≤ v.Blockchain.Difficulty →
      IsValid h block v.Blockchain.Difficulty = .ok true ∨
      IsValid h block v.Blockchain.Difficulty = .ok false) := by
  rw [Validate_eq h v block tip blk latest hblk htip hlatest]
  refine ⟨?_, ?_, ?_, ?_, ?_, ?_⟩
  · cases hv : IsValid h block v.Blockchain.Difficulty with
    | error e => simp
    | ok r =>
      cases r with
      | false => simp
      | true =>
        by_cases h1 : blk.PrevHash = latest.Hash
        · simp [h1, hdata]
        · simp [h1]
  · intro hv; rw [hv]
  · intro hv h1; rw [hv]; simp [h1]
  · intro hv h1; rw [hv]; simp [h1, hdata]
  · cases hv : IsValid h block v.Blockchain.Difficulty with
    | error e => simp
    | ok r =>
      cases r with
      | false => simp
      | true =>
        by_cases h1 : blk.PrevHash = latest.Hash
        · simp [h1, hdata]
        · simp [h1]
  · intro h0
    rw [IsValid_eq h block blk _ hblk, if_pos ⟨h0, hlen⟩]
    cases decide (blk.Hash.take v.Blockchain.Difficulty.toNat
      = repeatZero v.Blockchain.Difficulty) <;> simp

/-- Witness for the amended C6: the sample block with no transaction, hash
`"000a"` and previous hash `""` passes the first two rules and gets
"Empty block data". -/
theorem Validate_empty_payload_witness :
    (sampleHeap.load 4 = .ok emptyBlock ∧
      GetLatestBlock (NewValidator sampleChain).Blockchain = .ok 0 ∧
      sampleHeap.load 0 = .ok (NewGenesisBlock 0) ∧ emptyBlock.Data = [] ∧
      (NewValidator sampleChain).Blockchain.Difficulty ≤ (emptyBlock.Hash.length : Int) ∧
      IsValid sampleHeap 4 (NewValidator sampleChain).Blockchain.Difficulty = .ok true ∧
      emptyBlock.PrevHash = (NewGenesisBlock 0).Hash) ∧
    Validate sampleHeap (NewValidator sampleChain) 4 = .ok (some "Empty block data") :=
  ⟨⟨by decide, by decide, by decide, by decide, by decide, by decide, by decide⟩,
   (Validate_empty_payload sampleHeap (NewValidator sampleChain) 4 0 emptyBlock
     (NewGenesisBlock 0) (by decide) (by decide) (by decide) (by decide)
     (by decide)).2.2.2.1 (by decide) (by decide)⟩

/-- C7: for a non-empty chain and a candidate block whose hash meets the
chain's difficulty and whose `PrevHash` differs from the hash of the latest
block, `Validate` returns "Invalid previous hash", whatever the block's
transactions and nonce. -/
theorem Validate_bad_link (h : Heap) (v : Validator) (block tip : BlockPtr)
    (blk latest : Block)
    (hblk : h.load block = .ok blk)
    (htip : GetLatestBlock v.Blockchain = .ok tip)
    (hlatest : h.load tip = .ok latest)
    (hpow : IsValid h block v.Blockchain.Difficulty = .ok true)
    (hlink : blk.PrevHash ≠ latest.Hash) :
    Validate h v block = .ok (some "Invalid previous hash") := by
  rw [Validate_eq h v block tip blk latest hblk htip hlatest, hpow]
  simp [hlink]

/-- Witness for C7: the sample block with hash `"000a"`, one transaction,
nonce 7 and previous hash `"ff"`, against the sample chain whose latest hash
is `""`. -/
theorem Validate_bad_link_witness :
    (sampleHeap.load 3 = .ok badLinkBlock ∧
      GetLatestBlock (NewValidator sampleChain).Blockchain = .ok 0 ∧
      sampleHeap.load 0 = .ok (NewGenesisBlock 0) ∧
      IsValid sampleHeap 3 (NewValidator sampleChain).Blockchain.Difficulty = .ok true ∧
      badLinkBlock.PrevHash ≠ (NewGenesisBlock 0).Hash ∧
      badLinkBlock.Data ≠ [] ∧ badLinkBlock.Nonce ≠ 0) ∧
    Validate sampleHeap (NewValidator sampleChain) 3 = .ok (some "Invalid previous hash") :=
  ⟨⟨by decide, by decide, by decide, by decide, by decide, by decide, by decide⟩,
   Validate_bad_link sampleHeap (NewValidator sampleChain) 3 0 badLinkBlock
     (NewGenesisBlock 0) (by decide) (by decide) (by decide) (by decide) (by decide)⟩

/-! ## The chain -/

/-- C8: after `AddBlock(b)` the chain has exactly one more block and
`GetLatestBlock` returns `b` itself, the address that was appended. -/
theorem AddBlock_length_latest (bc : Blockchain) (b : BlockPtr) :
    (AddBlock bc b).Blocks.length = bc.Blocks.length + 1 ∧
    GetLatestBlock (AddBlock bc b) = .ok b := by
  simp [AddBlock, GetLatestBlock]

/-- C9: `AddBlock(b)` only extends the chain at the end: the new block list is
the old one followed by `b`, every earlier position holds the same block
address as before, the length grows by one, and `Difficulty` is unchanged.
`AddBlock` has no access to the heap, so no block's content changes. -/
theorem AddBlock_extends_at_end (bc : Blockchain) (b : BlockPtr) :
    (AddBlock bc b).Blocks = bc.Blocks ++ [b] ∧
    (∀ i : Nat, i < bc.Blocks.length →
      (AddBlock bc b).Blocks.get? i = bc.Blocks.get? i) ∧
    (AddBlock bc b).Blocks.take bc.Blocks.length = bc.Blocks ∧
    (AddBlock bc b).Difficulty = bc.Difficulty := by
  refine ⟨rfl, ?_, ?_, rfl⟩
  · intro i hi
    simp [AddBlock, List.getElem?_append_left hi]
  · simp [AddBlock]

/-- C10: the chain `NewBlockchain` creates holds exactly one block, the
freshly allocated genesis block, with index 0, no transaction, empty `Hash`,
empty `PrevHash` and nonce 0; its `Difficulty` is 3. -/
theorem NewBlockchain_genesis (h : Heap) (now : Time) :
    (NewBlockchain h now).2.Blocks.length = 1 ∧
    (NewBlockchain h now).2.Blocks = [h.length] ∧
    (NewBlockchain h now).1.load h.length = .ok (NewGenesisBlock now) ∧
    h.load h.length = .error .panic ∧
    (NewGenesisBlock now).Index = 0 ∧
    (NewGenesisBlock now).Data = [] ∧
    (NewGenesisBlock now).Hash = [] ∧
    (NewGenesisBlock now).PrevHash = [] ∧
    (NewGenesisBlock now).Nonce = 0 ∧
    (NewBlockchain h now).2.Difficulty = 3 := by
  refine ⟨rfl, rfl, ?_, ?_, rfl, rfl, rfl, rfl, rfl, rfl⟩
  · simp [NewBlockchain, Heap.alloc, Heap.load]
  · simp [Heap.load]

/-! ## Mining -/

/-- A store succeeds exactly on an allocated address, and replaces the block
there. -/
theorem Heap.store_eq (h : Heap) (p : BlockPtr) (f : Block → Block) (blk : Block)
    (hblk : h.load p = .ok blk) : h.store p f = .ok (h.set p (f blk)) := by
  rw [Heap.load_ok_iff] at hblk
  unfold Heap.store
  rw [hblk]

/-- A store on an address that holds no block panics. -/
theorem Heap.store_panic (h : Heap) (p : BlockPtr) (f : Block → Block)
    (hblk : h.load p = .error .panic) : h.store p f = .error .panic := by
  unfold Heap.load at hblk
  unfold Heap.store
  cases hg : h.get? p with
  | none => rfl
  | some b => rw [hg] at hblk; cases hblk

/-- After a write at an allocated address, that address holds the new block. -/
theorem Heap.load_set_same (h : Heap) (p : BlockPtr) (blk x : Block)
    (hblk : h.load p = .ok blk) : Heap.load (h.set p x) p = .ok x := by
  rw [Heap.load_ok_iff] at hblk ⊢
  have hp : p < h.length := by
    rcases List.get?_eq_some.mp hblk with ⟨hp, _⟩
    exact hp
  simp [hp]

/-- A write at one address leaves every other address as it was. -/
theorem Heap.load_set_other (h : Heap) (p q : BlockPtr) (x : Block) (hq : q ≠ p) :
    Heap.load (h.set p x) q = h.load q := by
  unfold Heap.load
  have : (h.set p x).get? q = h.get? q := by
    simp [List.getElem?_set_ne (Ne.symm hq)]
  rw [this]

/-- Loading either succeeds or panics. -/
theorem Heap.load_cases (h : Heap) (p : BlockPtr) :
    (∃ blk, h.load p = .ok blk) ∨ h.load p = .error .panic := by
  unfold Heap.load
  cases h.get? p with
  | none => exact Or.inr rfl
  | some b => exact Or.inl ⟨b, rfl⟩

/-- The body of `CalculateHash` on an allocated block. -/
theorem CalculateHash_eq (e : Hasher) (h : Heap) (b : BlockPtr) (blk : Block)
    (hblk : h.load b = .ok blk) :
    CalculateHash e h b = .ok (sprintfHex (e.Sum256 (blk.String e)).val) := by
  simp [CalculateHash, hblk, bind, Except.bind, pure, Except.pure]

/-- One iteration of the mining loop on an allocated block. -/
theorem mineLoop_succ (e : Hasher) (rnd : Nat → Fin 1000000000) (b : BlockPtr) (d : Int)
    (fuel k : Nat) (h : Heap) (blk : Block) (hblk : h.load b = .ok blk) :
    mineLoop e rnd b d (fuel + 1) k h =
      match IsValid (h.set b (blk.attempt e ((rnd k).val : Int))) b d with
      | .error err => .error err
      | .ok true => .ok (some (h.set b (blk.attempt e ((rnd k).val : Int)), k + 1))
      | .ok false =>
        mineLoop e rnd b d fuel (k + 1) (h.set b (blk.attempt e ((rnd k).val : Int))) := by
  have h1 := Heap.store_eq h b (fun blk => { blk with Nonce := ((rnd k).val : Int) }) blk hblk
  have hl1 := Heap.load_set_same h b blk { blk with Nonce := ((rnd k).val : Int) } hblk
  have hc := CalculateHash_eq e _ b _ hl1
  have h2 := Heap.store_eq _ b
    (fun x => { x with Hash := sprintfHex (e.Sum256
      (Block.String e { blk with Nonce := ((rnd k).val : Int) })).val }) _ hl1
  rw [mineLoop]
  simp only [h1, hc, h2, bind, Except.bind, List.set_set]
  unfold Block.attempt
  generalize h.set b _ = h2
  cases hv : IsValid h2 b d with
  | error err => rfl
  | ok r => cases r <;> rfl

/-- On an address that holds no block the mining loop panics at once. -/
theorem mineLoop_panic (e : Hasher) (rnd : Nat → Fin 1000000000) (b : BlockPtr) (d : Int)
    (fuel k : Nat) (h : Heap) (hblk : h.load b = .error .panic) :
    mineLoop e rnd b d (fuel + 1) k h = .error .panic := by
  rw [mineLoop, Heap.store_panic h b _ hblk]
  rfl

/-- A later attempt overwrites an earlier one: only the nonce and the hash
differ from the original block. -/
theorem Block.attempt_attempt (e : Hasher) (blk : Block) (n1 n2 : Int) :
    (blk.attempt e n1).attempt e n2 = blk.attempt e n2 := rfl

/-- What a returning mining loop leaves: the heap in which the block at `b` is
replaced by its attempt with the last nonce drawn, and that attempt passes the
proof-of-work test. -/
theorem mineLoop_returns (e : Hasher) (rnd : Nat → Fin 1000000000) (b : BlockPtr) (d : Int) :
    ∀ (fuel k : Nat) (h h' : Heap) (n : Nat),
      mineLoop e rnd b d fuel k h = .ok (some (h', n)) →
      ∃ blk, h.load b = .ok blk ∧ k < n ∧ n ≤ k + fuel ∧
        h' = h.set b (blk.attempt e ((rnd (n - 1)).val : Int)) ∧
        IsValid h' b d = .ok true := by
  intro fuel
  induction fuel with
  | zero =>
    intro k h h' n hret
    simp [mineLoop] at hret
  | succ fuel ih =>
    intro k h h' n hret
    rcases Heap.load_cases h b with ⟨blk, hblk⟩ | hpanic
    · rw [mineLoop_succ e rnd b d fuel k h blk hblk] at hret
      cases hv : IsValid (h.set b (blk.attempt e ((rnd k).val : Int))) b d with
      | error err => rw [hv] at hret; cases hret
      | ok r =>
        rw [hv] at hret
        cases r with
        | true =>
          simp only [Except.ok.injEq, Option.some.injEq, Prod.mk.injEq] at hret
          obtain ⟨rfl, rfl⟩ := hret
          exact ⟨blk, hblk, by omega, by omega, by simp, hv⟩
        | false =>
          simp only at hret
          obtain ⟨blk2, hblk2, hk, hn, hh', hvalid⟩ := ih (k + 1) _ h' n hret
          have hl := Heap.load_set_same h b blk (blk.attempt e ((rnd k).val : Int)) hblk
          rw [hl] at hblk2
          cases hblk2
          refine ⟨blk, hblk, by omega, by omega, ?_, hvalid⟩
          rw [hh', List.set_set, Block.attempt_attempt]
    · rw [mineLoop_panic e rnd b d fuel k h hpanic] at hret
      cases hret

/-- What a returning `MineBlock` leaves. -/
theorem MineBlock_returns (e : Hasher) (rnd : Nat → Fin 1000000000) (fuel : Nat) (h : Heap)
    (b : BlockPtr) (d : Int) (h' : Heap) (n : Nat)
    (hret : MineBlock e rnd fuel h b d = .ok (some (h', n))) :
    ∃ blk, h.load b = .ok blk ∧ 0 < n ∧ n ≤ fuel ∧
      h' = h.set b (blk.attempt e ((rnd (n - 1)).val : Int)) ∧
      h'.load b = .ok (blk.attempt e ((rnd (n - 1)).val : Int)) ∧
      IsValid h' b d = .ok true := by
  obtain ⟨blk, hblk, hk, hn, hh', hvalid⟩ := mineLoop_returns e rnd b d fuel 0 h h' n hret
  refine ⟨blk, hblk, hk, by omega, hh', ?_, hvalid⟩
  rw [hh']
  exact Heap.load_set_same h b blk _ hblk

/-- On an allocated block and a difficulty within the hash length, `IsValid`
is true exactly when the leading bytes are all the character `0`. -/
theorem IsValid_iff_leading_zeros_aux (h : Heap) (b : BlockPtr) (blk : Block) (d : Int)
    (hblk : h.load b = .ok blk) (h0 : 0 ≤ d) (hd : d ≤ (blk.Hash.length : Int)) :
    IsValid h b d = .ok true ↔
      ∀ i : Nat, (i : Int) < d → blk.Hash.get? i = some 48 := by
  rw [IsValid_eq h b blk d hblk, if_pos ⟨h0, hd⟩]
  have hn : d.toNat ≤ blk.Hash.length := by omega
  have key := take_eq_replicate_iff (48 : byte) blk.Hash d.toNat hn
  simp only [Except.ok.injEq, decide_eq_true_eq, repeatZero, key]
  constructor
  · intro hall i hi
    exact hall i (by omega)
  · intro hall i hi
    exact hall i (by omega)

/-- The hexadecimal form has two characters a byte. -/
theorem sprintfHex_length (l : List byte) : (sprintfHex l).length = 2 * l.length := by
  induction l with
  | nil => rfl
  | cons x xs ih => simp [sprintfHex, ih]; omega

/-- The hexadecimal form of a SHA-256 digest has 64 characters. -/
theorem sprintfHex_length_digest (x : Digest) : (sprintfHex x.val).length = 64 := by
  rw [sprintfHex_length, x.property]

/-- C11: whenever `MineBlock(d)` returns, for a difficulty `0 <= d <= 6`, any
block and any stream of candidate nonces, `IsValid(d)` is true on the
resulting block, and the first `d` bytes of its `Hash` are `d` copies of the
character `0`: `Hash[:d]` is `strings.Repeat("0", d)`. -/
theorem MineBlock_produces_valid (e : Hasher) (rnd : Nat → Fin 1000000000) (fuel : Nat)
    (h : Heap) (b : BlockPtr) (d : Int) (h' : Heap) (n : Nat)
    (_hd0 : 0 ≤ d) (_hd6 : d ≤ 6)
    (hret : MineBlock e rnd fuel h b d = .ok (some (h', n))) :
    IsValid h' b d = .ok true ∧
    ∃ blk', h'.load b = .ok blk' ∧
      sliceTo blk'.Hash d = .ok (repeatZero d) ∧
      ∀ i : Nat, (i : Int) < d → blk'.Hash.get? i = some 48 := by
  obtain ⟨blk, _, _, _, _, hload, hvalid⟩ := MineBlock_returns e rnd fuel h b d h' n hret
  refine ⟨hvalid, _, hload, ?_⟩
  have hv := hvalid
  rw [IsValid_eq h' b _ d hload] at hv
  split at hv
  · rename_i hrange
    simp only [Except.ok.injEq, decide_eq_true_eq] at hv
    refine ⟨by simp [sliceTo, hrange, hv], ?_⟩
    exact ((IsValid_iff_leading_zeros_aux h' b _ d hload hrange.1 hrange.2).mp hvalid)
  · cases hv

/-- Witness for C11: mining `unminedBlock` at difficulty 3 with the sample
hasher and draws returns after three draws. -/
theorem MineBlock_produces_valid_witness :
    ((0 : Int) ≤ 3 ∧ (3 : Int) ≤ 6 ∧
      MineBlock sampleHasher sampleDraws 10 unminedHeap 1 3 = .ok (some (minedHeap, 3))) ∧
    (IsValid minedHeap 1 3 = .ok true ∧
      ∃ blk', minedHeap.load 1 = .ok blk' ∧
        sliceTo blk'.Hash 3 = .ok (repeatZero 3) ∧
        ∀ i : Nat, (i : Int) < 3 → blk'.Hash.get? i = some 48) :=
  ⟨⟨by decide, by decide, by decide⟩,
   MineBlock_produces_valid sampleHasher sampleDraws 10 unminedHeap 1 3 minedHeap 3
     (by decide) (by decide) (by decide)⟩

/-- C12: after `MineBlock` returns, the stored `Hash` is the digest of the
block's content with the final nonce: `CalculateHash()` recomputed on the
mined block, in its final state, returns exactly `Hash`. -/
theorem MineBlock_hash_is_digest (e : Hasher) (rnd : Nat → Fin 1000000000) (fuel : Nat)
    (h : Heap) (b : BlockPtr) (d : Int) (h' : Heap) (n : Nat)
    (hret : MineBlock e rnd fuel h b d = .ok (some (h', n))) :
    ∃ blk', h'.load b = .ok blk' ∧
      CalculateHash e h' b = .ok blk'.Hash ∧
      blk'.Hash = sprintfHex (e.Sum256 (e.encode blk'.content)).val ∧
      blk'.Hash.length = 64 := by
  obtain ⟨blk, _, _, _, _, hload, _⟩ := MineBlock_returns e rnd fuel h b d h' n hret
  refine ⟨_, hload, ?_, rfl, ?_⟩
  · rw [CalculateHash_eq e h' b _ hload]
    rfl
  · exact sprintfHex_length_digest _

/-- Witness for C12: mining `unminedBlock` at difficulty 3 with the sample
hasher and draws; the stored hash is the digest of the block with nonce 16. -/
theorem MineBlock_hash_is_digest_witness :
    MineBlock sampleHasher sampleDraws 10 unminedHeap 1 3 = .ok (some (minedHeap, 3)) ∧
    ∃ blk', minedHeap.load 1 = .ok blk' ∧
      CalculateHash sampleHasher minedHeap 1 = .ok blk'.Hash ∧
      blk'.Hash = sprintfHex (sampleHasher.Sum256 (sampleHasher.encode blk'.content)).val ∧
      blk'.Hash.length = 64 :=
  ⟨by decide,
   MineBlock_hash_is_digest sampleHasher sampleDraws 10 unminedHeap 1 3 minedHeap 3
     (by decide)⟩

/-- C17: whenever `MineBlock` returns, the block's `Index`, `Data`,
`Contracts`, `PrevHash` and `Timestamp` are as before the call, the final
`Nonce` is one of the candidates drawn, so `0 <= Nonce < 1000000000`, and no
other block of the heap has changed. -/
theorem MineBlock_changes_only_nonce_and_hash (e : Hasher) (rnd : Nat → Fin 1000000000)
    (fuel : Nat) (h : Heap) (b : BlockPtr) (d : Int) (h' : Heap) (n : Nat)
    (hret : MineBlock e rnd fuel h b d = .ok (some (h', n))) :
    ∃ blk blk', h.load b = .ok blk ∧ h'.load b = .ok blk' ∧
      blk'.Index = blk.Index ∧ blk'.Data = blk.Data ∧ blk'.Contracts = blk.Contracts ∧
      blk'.PrevHash = blk.PrevHash ∧ blk'.Timestamp = blk.Timestamp ∧
      (∃ k, k < n ∧ blk'.Nonce = ((rnd k).val : Int)) ∧
      0 ≤ blk'.Nonce ∧ blk'.Nonce < 1000000000 ∧
      (∀ q, q ≠ b → h'.load q = h.load q) ∧ h'.length = h.length := by
  obtain ⟨blk, hblk, hn, _, hh', hload, _⟩ := MineBlock_returns e rnd fuel h b d h' n hret
  refine ⟨blk, _, hblk, hload, rfl, rfl, rfl, rfl, rfl, ⟨n - 1, by omega, rfl⟩, ?_, ?_, ?_, ?_⟩
  · exact Int.ofNat_nonneg _
  · have := (rnd (n - 1)).isLt
    show ((rnd (n - 1)).val : Int) < 1000000000
    omega
  · intro q hq
    rw [hh']
    exact Heap.load_set_other h b q _ hq
  · rw [hh']
    simp

/-- Witness for C17: the run of three draws on `unminedHeap`; the genesis
block at address 0 is untouched and the final nonce is the third draw, 16. -/
theorem MineBlock_changes_only_nonce_and_hash_witness :
    MineBlock sampleHasher sampleDraws 10 unminedHeap 1 3 = .ok (some (minedHeap, 3)) ∧
    (∃ blk blk', unminedHeap.load 1 = .ok blk ∧ minedHeap.load 1 = .ok blk' ∧
      blk'.Index = blk.Index ∧ blk'.Data = blk.Data ∧ blk'.Contracts = blk.Contracts ∧
      blk'.PrevHash = blk.PrevHash ∧ blk'.Timestamp = blk.Timestamp ∧
      (∃ k, k < 3 ∧ blk'.Nonce = ((sampleDraws k).val : Int)) ∧
      0 ≤ blk'.Nonce ∧ blk'.Nonce < 1000000000 ∧
      (∀ q, q ≠ 1 → minedHeap.load q = unminedHeap.load q) ∧
      minedHeap.length = unminedHeap.length) :=
  ⟨by decide,
   MineBlock_changes_only_nonce_and_hash sampleHasher sampleDraws 10 unminedHeap 1 3
     minedHeap 3 (by decide)⟩

/-! ## Construction, validation after appending, difficulty 0 -/

/-- C18: `NewBlock(data, contracts, prevHash)` returns an unmined block with
`Index` 0, empty `Hash`, `Nonce` 0 and the given transactions, contracts and
previous hash; and when `MineBlock` has returned on it and it is appended to a
chain of any length, it is the chain's latest block and its `Index` is still
0. -/
theorem NewBlock_index_never_renumbered (h : Heap) (data : List Transaction)
    (contracts : List SmartContract) (prevHash : GoString) (now : Time) :
    (NewBlock h data contracts prevHash now).1.load (NewBlock h data contracts prevHash now).2
      = .ok { Index := 0, Data := data, Contracts := contracts, Hash := [],
              PrevHash := prevHash, Timestamp := now, Nonce := 0 } ∧
    ∀ (e : Hasher) (rnd : Nat → Fin 1000000000) (fuel : Nat) (d : Int) (h' : Heap) (n : Nat)
      (bc : Blockchain),
      MineBlock e rnd fuel (NewBlock h data contracts prevHash now).1
        (NewBlock h data contracts prevHash now).2 d = .ok (some (h', n)) →
      GetLatestBlock (AddBlock bc (NewBlock h data contracts prevHash now).2)
        = .ok (NewBlock h data contracts prevHash now).2 ∧
      (AddBlock bc (NewBlock h data contracts prevHash now).2).Blocks.length
        = bc.Blocks.length + 1 ∧
      ∃ blk', h'.load (NewBlock h data contracts prevHash now).2 = .ok blk' ∧
        blk'.Index = 0 := by
  have hnew := Heap.load_alloc h
    { Index := 0, Data := data, Contracts := contracts, Hash := [], PrevHash := prevHash,
      Timestamp := now, Nonce := 0 }
  refine ⟨hnew, ?_⟩
  intro e rnd fuel d h' n bc hret
  obtain ⟨blk, hblk, _, _, _, hload, _⟩ := MineBlock_returns e rnd fuel _ _ d h' n hret
  have hb := hblk.symm.trans hnew
  simp only [Except.ok.injEq] at hb
  refine ⟨by simp [AddBlock, GetLatestBlock], by simp [AddBlock], _, hload, ?_⟩
  show blk.Index = 0
  rw [hb]

/-- Witness for C18: `NewBlock` on the heap holding the genesis block, mined
with the sample hasher and draws and appended to the sample chain. -/
theorem NewBlock_index_never_renumbered_witness :
    (NewBlock [NewGenesisBlock 0] [sampleTx] [] [] 1).1 = unminedHeap ∧
    (NewBlock [NewGenesisBlock 0] [sampleTx] [] [] 1).2 = 1 ∧
    MineBlock sampleHasher sampleDraws 10 unminedHeap 1 3 = .ok (some (minedHeap, 3)) ∧
    GetLatestBlock (AddBlock sampleChain 1) = .ok 1 ∧
    (AddBlock sampleChain 1).Blocks.length = sampleChain.Blocks.length + 1 ∧
    ∃ blk', minedHeap.load 1 = .ok blk' ∧ blk'.Index = 0 :=
  ⟨by decide, by decide, by decide,
   (NewBlock_index_never_renumbered [NewGenesisBlock 0] [sampleTx] [] [] 1).2
     sampleHasher sampleDraws 10 3 minedHeap 3 sampleChain (by decide)⟩

/-- C19: validating a block after it has been appended rejects it: when the
hash of `b` meets the chain's difficulty and its `PrevHash` differs from its
own `Hash`, `Validate(b)` after `AddBlock(b)` returns "Invalid previous hash",
because the latest block is then `b` itself. This is so in particular when
the difficulty is at least 1 and `PrevHash` is empty, as in `main`. -/
theorem Validate_after_AddBlock (h : Heap) (bc : Blockchain) (b : BlockPtr) (blk : Block)
    (hblk : h.load b = .ok blk)
    (hpow : IsValid h b bc.Difficulty = .ok true) :
    GetLatestBlock (AddBlock bc b) = .ok b ∧
    (blk.PrevHash ≠ blk.Hash →
      Validate h (NewValidator (AddBlock bc b)) b = .ok (some "Invalid previous hash")) ∧
    (1 ≤ bc.Difficulty → blk.PrevHash = [] →
      Validate h (NewValidator (AddBlock bc b)) b = .ok (some "Invalid previous hash")) := by
  have htip : GetLatestBlock (AddBlock bc b) = .ok b := by simp [AddBlock, GetLatestBlock]
  have hpow' : IsValid h b (NewValidator (AddBlock bc b)).Blockchain.Difficulty = .ok true := hpow
  have key : blk.PrevHash ≠ blk.Hash →
      Validate h (NewValidator (AddBlock bc b)) b = .ok (some "Invalid previous hash") := by
    intro hne
    rw [Validate_eq h (NewValidator (AddBlock bc b)) b b blk blk hblk htip hblk, hpow']
    simp [hne]
  refine ⟨htip, key, ?_⟩
  intro hd hprev
  apply key
  rw [hprev]
  intro hempty
  have hv := hpow
  rw [IsValid_eq h b blk _ hblk] at hv
  split at hv
  · rename_i hrange
    rw [← hempty] at hrange
    simp at hrange
    omega
  · cases hv

/-- Witness for C19: the mined sample block (hash `"000a"`, previous hash
`""`) appended to the sample chain and validated afterwards, as `main` does. -/
theorem Validate_after_AddBlock_witness :
    (sampleHeap.load 1 = .ok minedBlock ∧
      IsValid sampleHeap 1 sampleChain.Difficulty = .ok true ∧
      minedBlock.PrevHash ≠ minedBlock.Hash ∧
      Validate sampleHeap (NewValidator sampleChain) 1 = .ok none) ∧
    Validate sampleHeap (NewValidator (AddBlock sampleChain 1)) 1
      = .ok (some "Invalid previous hash") :=
  ⟨⟨by decide, by decide, by decide, by decide⟩,
   (Validate_after_AddBlock sampleHeap sampleChain 1 minedBlock (by decide) (by decide)).2.1
     (by decide)⟩

/-- C20: at difficulty 0 the proof-of-work test is vacuous: on every block,
also one with the empty hash, `IsValid(0)` is true, and `MineBlock(0)` returns
after exactly one candidate nonce, a single hash computation, whatever the
stream of draws. -/
theorem difficulty_zero_is_vacuous (e : Hasher) (rnd : Nat → Fin 1000000000) (fuel : Nat)
    (h : Heap) (b : BlockPtr) (blk : Block) (hblk : h.load b = .ok blk) :
    IsValid h b 0 = .ok true ∧
    MineBlock e rnd (fuel + 1) h b 0
      = .ok (some (h.set b (blk.attempt e ((rnd 0).val : Int)), 1)) := by
  have hzero : ∀ (h0 : Heap) (x : Block), h0.load b = .ok x → IsValid h0 b 0 = .ok true := by
    intro h0 x hx
    rw [IsValid_eq h0 b x 0 hx]
    simp [repeatZero]
  refine ⟨hzero h blk hblk, ?_⟩
  unfold MineBlock
  rw [mineLoop_succ e rnd b 0 fuel 0 h blk hblk,
    hzero _ _ (Heap.load_set_same h b blk _ hblk)]

/-- Witness for C20: the unmined sample block, whose hash is empty. -/
theorem difficulty_zero_is_vacuous_witness :
    (unminedHeap.load 1 = .ok unminedBlock ∧ unminedBlock.Hash = []) ∧
    (IsValid unminedHeap 1 0 = .ok true ∧
      MineBlock sampleHasher sampleDraws (0 + 1) unminedHeap 1 0
        = .ok (some (unminedHeap.set 1
            (unminedBlock.attempt sampleHasher ((sampleDraws 0).val : Int)), 1))) :=
  ⟨⟨by decide, by decide⟩,
   difficulty_zero_is_vacuous sampleHasher sampleDraws 0 unminedHeap 1 unminedBlock
     (by decide)⟩

/-! ## End to end -/

/-- Allocation keeps every block already in the heap. -/
theorem Heap.load_alloc_other (h : Heap) (b x : Block) (q : BlockPtr)
    (hq : h.load q = .ok x) : (h.alloc b).1.load q = .ok x := by
  rw [Heap.load_ok_iff] at hq ⊢
  have hlt : q < h.length := (List.get?_eq_some.mp hq).1
  simp only [Heap.alloc, List.get?_eq_getElem?] at hq ⊢
  rw [List.getElem?_append_left hlt]
  exact hq

/-- What a successful `Validate` establishes. -/
theorem Validate_nil_elim (h : Heap) (v : Validator) (block : BlockPtr)
    (hok : Validate h v block = .ok none) :
    ∃ blk tip latest, h.load block = .ok blk ∧ GetLatestBlock v.Blockchain = .ok tip ∧
      h.load tip = .ok latest ∧ IsValid h block v.Blockchain.Difficulty = .ok true ∧
      blk.PrevHash = latest.Hash ∧ blk.Data ≠ [] ∧ blk.Nonce ≠ 0 := by
  rcases Heap.load_cases h block with ⟨blk, hblk⟩ | hpanic
  · cases hv : IsValid h block v.Blockchain.Difficulty with
    | error err =>
      simp [Validate, hv, bind, Except.bind] at hok
    | ok r =>
      cases r with
      | false => simp [Validate, hv, bind, Except.bind, pure, Except.pure] at hok
      | true =>
        cases htip : GetLatestBlock v.Blockchain with
        | error err => simp [Validate, hv, hblk, htip, bind, Except.bind, pure, Except.pure] at hok
        | ok tip =>
          rcases Heap.load_cases h tip with ⟨latest, hlatest⟩ | hpanic
          · rw [Validate_eq h v block tip blk latest hblk htip hlatest, hv] at hok
            refine ⟨blk, tip, latest, hblk, rfl, hlatest, rfl, ?_⟩
            by_cases h1 : blk.PrevHash = latest.Hash <;>
            by_cases h2 : blk.Data = [] <;>
            by_cases h3 : blk.Nonce = 0 <;> simp [h1, h2, h3] at hok ⊢
          · simp [Validate, hv, hblk, htip, hpanic, bind, Except.bind, pure, Except.pure] at hok
  · have hv : IsValid h block v.Blockchain.Difficulty = .error .panic := by
      simp [IsValid, hpanic, bind, Except.bind]
    simp [Validate, hv, bind, Except.bind] at hok

/-- C13: on the chain `NewBlockchain` creates, the block `NewBlock` builds
from one transaction and the latest hash `""` is mined at the chain's
difficulty 3; the first nonce drawn is 0 and its hash has three leading zeros,
so `MineBlock` returns with `Nonce` 0, and `Validate` answers "Invalid nonce"
where `TestValidateBlock` expects nil: `rand.Intn(1000000000)` ranges over the
value 0 that `Validate` takes for "never mined". -/
theorem mined_block_nonce_zero_rejected :
    NewBlockchain [] 0 = ([NewGenesisBlock 0], sampleChain) ∧
    GetLatestBlock sampleChain = .ok 0 ∧
    Heap.load [NewGenesisBlock 0] 0 = .ok (NewGenesisBlock 0) ∧
    NewBlock [NewGenesisBlock 0] [sampleTx] [] (NewGenesisBlock 0).Hash 1 = (unminedHeap, 1) ∧
    MineBlock sampleHasher zeroDraws 10 unminedHeap 1 sampleChain.Difficulty
      = .ok (some (zeroMinedHeap, 1)) ∧
    IsValid zeroMinedHeap 1 sampleChain.Difficulty = .ok true ∧
    Validate zeroMinedHeap (NewValidator sampleChain) 1 = .ok (some "Invalid nonce") ∧
    Validate zeroMinedHeap (NewValidator sampleChain) 1 ≠ .ok none := by
  decide

/-- What `Validate` answers on a freshly mined block, for every hasher and
stream of draws: on a chain created by `NewBlockchain`, for a block built by
`NewBlock` with a non-empty transaction list and the hash of the chain's
latest block as previous hash, once `MineBlock(chain.Difficulty)` has returned
the answer is nil when the final nonce is not 0 and "Invalid nonce" when it
is 0. Appending the block gives a chain of length 2 whose second block is that
block, with `PrevHash` `""`. -/
theorem mined_block_accepted (e : Hasher) (rnd : Nat → Fin 1000000000) (fuel : Nat)
    (h0 h1 h2 h' : Heap) (bc : Blockchain) (now now2 : Time)
    (data : List Transaction) (contracts : List SmartContract)
    (tip p : BlockPtr) (latest : Block) (n : Nat)
    (hcreate : NewBlockchain h0 now = (h1, bc))
    (htip : GetLatestBlock bc = .ok tip)
    (hlatest : h1.load tip = .ok latest)
    (hdata : data ≠ [])
    (hnew : NewBlock h1 data contracts latest.Hash now2 = (h2, p))
    (hret : MineBlock e rnd fuel h2 p bc.Difficulty = .ok (some (h', n))) :
    ∃ blk', h'.load p = .ok blk' ∧
      (blk'.Nonce ≠ 0 → Validate h' (NewValidator bc) p = .ok none) ∧
      (blk'.Nonce = 0 → Validate h' (NewValidator bc) p = .ok (some "Invalid nonce")) ∧
      (AddBlock bc p).Blocks.length = 2 ∧
      (AddBlock bc p).Blocks.get? 1 = some p ∧
      blk'.PrevHash = [] := by
  simp only [NewBlockchain, Heap.alloc, Prod.mk.injEq] at hcreate
  obtain ⟨rfl, rfl⟩ := hcreate
  have htip' : tip = h0.length := by
    simp [GetLatestBlock] at htip
    exact htip.symm
  subst htip'
  have hg : Heap.load (h0 ++ [NewGenesisBlock now]) h0.length = .ok (NewGenesisBlock now) := by
    simp [Heap.load]
  have hlat : latest = NewGenesisBlock now := by
    rw [hg] at hlatest
    simpa using hlatest.symm
  subst hlat
  have hnewload := Heap.load_alloc (h0 ++ [NewGenesisBlock now])
    { Index := 0, Data := data, Contracts := contracts, Hash := [],
      PrevHash := (NewGenesisBlock now).Hash, Timestamp := now2, Nonce := 0 }
  have hnew2 : NewBlock (h0 ++ [NewGenesisBlock now]) data contracts
      (NewGenesisBlock now).Hash now2 = (h2, p) := hnew
  unfold NewBlock at hnew2
  rw [hnew2] at hnewload
  simp only [Heap.alloc, Prod.mk.injEq] at hnew2
  obtain ⟨hh2, hp⟩ := hnew2
  have hpne : h0.length ≠ p := by
    rw [← hp]
    simp
  obtain ⟨blk, hblk, _, _, hh', hload, hvalid⟩ :=
    MineBlock_returns e rnd fuel h2 p _ h' n hret
  rw [hnewload] at hblk
  simp only [Except.ok.injEq] at hblk
  have htipload : h'.load h0.length = .ok (NewGenesisBlock now) := by
    rw [hh', Heap.load_set_other h2 p h0.length _ hpne, ← hh2]
    exact Heap.load_alloc_other _ _ _ _ hg
  have hv := Validate_eq h' (NewValidator ⟨[h0.length], 3⟩) p h0.length _ _ hload
    (by simp [GetLatestBlock, NewValidator]) htipload
  have hvalid' : IsValid h' p (NewValidator ⟨[h0.length], 3⟩).Blockchain.Difficulty
      = .ok true := hvalid
  rw [hvalid'] at hv
  have hprev : (blk.attempt e ((rnd (n - 1)).val : Int)).PrevHash = [] := by
    rw [← hblk]; rfl
  have hdat : (blk.attempt e ((rnd (n - 1)).val : Int)).Data ≠ [] := by
    rw [← hblk]; exact hdata
  refine ⟨_, hload, ?_, ?_, by simp [AddBlock], by simp [AddBlock], hprev⟩
  · intro hn0
    rw [hv]
    simp [hprev, hdat, hn0, NewGenesisBlock]
  · intro hn0
    rw [hv]
    simp [hprev, hdat, hn0, NewGenesisBlock]

/-- The sample run, whose accepted nonce is 16: `Validate` returns nil. -/
theorem mined_block_accepted_witness :
    (NewBlockchain [] 0 = ([NewGenesisBlock 0], sampleChain) ∧
      GetLatestBlock sampleChain = .ok 0 ∧
      Heap.load [NewGenesisBlock 0] 0 = .ok (NewGenesisBlock 0) ∧
      [sampleTx] ≠ [] ∧
      NewBlock [NewGenesisBlock 0] [sampleTx] [] (NewGenesisBlock 0).Hash 1 = (unminedHeap, 1) ∧
      MineBlock sampleHasher sampleDraws 10 unminedHeap 1 sampleChain.Difficulty
        = .ok (some (minedHeap, 3))) ∧
    (∃ blk', minedHeap.load 1 = .ok blk' ∧
      (blk'.Nonce ≠ 0 → Validate minedHeap (NewValidator sampleChain) 1 = .ok none) ∧
      (blk'.Nonce = 0 →
        Validate minedHeap (NewValidator sampleChain) 1 = .ok (some "Invalid nonce")) ∧
      (AddBlock sampleChain 1).Blocks.length = 2 ∧
      (AddBlock sampleChain 1).Blocks.get? 1 = some 1 ∧
      blk'.PrevHash = []) ∧
    Validate minedHeap (NewValidator sampleChain) 1 = .ok none :=
  ⟨⟨by decide, by decide, by decide, by decide, by decide, by decide⟩,
   mined_block_accepted sampleHasher sampleDraws 10 [] [NewGenesisBlock 0] unminedHeap
     minedHeap sampleChain 0 1 [sampleTx] [] 0 1 (NewGenesisBlock 0) 3
     (by decide) (by decide) (by decide) (by decide) (by decide) (by decide),
   by decide⟩

/-! ## Invariants of runs -/

/-- C16: on every state reached from a chain `NewBlockchain` created, by any
sequence of `AddBlock` calls (with `NewBlock` and `MineBlock` calls in
between), the block list is non-empty and its first element is the genesis
block allocated at creation, still with empty `PrevHash` and no transaction;
so `GetLatestBlock` returns a block and does not fail. -/
theorem Reachable_genesis_first (e : Hasher) (h : Heap) (now : Time) (s : State)
    (hrun : Reachable e { heap := (NewBlockchain h now).1, chain := (NewBlockchain h now).2 } s) :
    s.chain.Blocks ≠ [] ∧
    s.chain.Blocks.head? = some h.length ∧
    (∃ g, s.heap.load h.length = .ok g ∧ g.PrevHash = [] ∧ g.Data = [] ∧
      g.Index = 0 ∧ g.Contracts = [] ∧ g.Timestamp = now) ∧
    ∃ tip, GetLatestBlock s.chain = .ok tip := by
  have key : s.chain.Blocks.head? = some h.length ∧
      ∃ g, s.heap.load h.length = .ok g ∧ g.PrevHash = [] ∧ g.Data = [] ∧
        g.Index = 0 ∧ g.Contracts = [] ∧ g.Timestamp = now := by
    induction hrun with
    | start =>
      refine ⟨rfl, NewGenesisBlock now, ?_, rfl, rfl, rfl, rfl, rfl⟩
      simp [NewBlockchain, Heap.alloc, Heap.load]
    | newBlock s data contracts prevHash now2 _ ih =>
      obtain ⟨hhead, g, hg, hrest⟩ := ih
      exact ⟨hhead, g, Heap.load_alloc_other _ _ _ _ hg, hrest⟩
    | mineBlock s rnd fuel b d h' n _ hret ih =>
      obtain ⟨hhead, g, hg, hp, hd, hi, hc, ht⟩ := ih
      refine ⟨hhead, ?_⟩
      obtain ⟨blk, hblk, _, _, hh', hload, _⟩ := MineBlock_returns e rnd fuel _ b d h' n hret
      by_cases hb : h.length = b
      · subst hb
        rw [hg] at hblk
        simp only [Except.ok.injEq] at hblk
        subst hblk
        exact ⟨_, hload, hp, hd, hi, hc, ht⟩
      · refine ⟨g, ?_, hp, hd, hi, hc, ht⟩
        show Heap.load h' h.length = .ok g
        rw [hh', Heap.load_set_other _ b h.length _ hb]
        exact hg
    | addBlock s b _ ih =>
      obtain ⟨hhead, hg⟩ := ih
      refine ⟨?_, hg⟩
      show (s.chain.Blocks ++ [b]).head? = some h.length
      cases hbl : s.chain.Blocks with
      | nil => rw [hbl] at hhead; cases hhead
      | cons x xs => rw [hbl] at hhead; simpa using hhead
  have hne : s.chain.Blocks ≠ [] := by
    intro hnil
    rw [hnil] at key
    cases key.1
  exact ⟨hne, key.1, key.2, (GetLatestBlock_ok_iff_nonempty s.chain).mpr hne⟩

/-- Witness for C16: from the created chain, `NewBlock`, `MineBlock` on the
new block and `AddBlock` without validation. -/
theorem Reachable_genesis_first_witness :
    Reachable sampleHasher createdState { heap := minedHeap, chain := AddBlock sampleChain 1 } ∧
    (AddBlock sampleChain 1).Blocks ≠ [] ∧
    (AddBlock sampleChain 1).Blocks.head? = some 0 ∧
    (∃ g, minedHeap.load 0 = .ok g ∧ g.PrevHash = [] ∧ g.Data = [] ∧
      g.Index = 0 ∧ g.Contracts = [] ∧ g.Timestamp = 0) ∧
    ∃ tip, GetLatestBlock (AddBlock sampleChain 1) = .ok tip :=
  have hrun : Reachable sampleHasher createdState
      { heap := minedHeap, chain := AddBlock sampleChain 1 } :=
    Reachable.addBlock { heap := minedHeap, chain := sampleChain } 1
      (Reachable.mineBlock { heap := unminedHeap, chain := sampleChain } sampleDraws 10 1 3
        minedHeap 3
        (Reachable.newBlock createdState [sampleTx] [] [] 1 Reachable.start)
        (by decide))
  ⟨hrun, Reachable_genesis_first sampleHasher [] 0 _ hrun⟩

/-- The link between two blocks depends on their two heap cells only. -/
theorem Linked.of_load_eq (h h' : Heap) (q p : BlockPtr)
    (hq : h'.load q = h.load q) (hp : h'.load p = h.load p) (hl : Linked h q p) :
    Linked h' q p := by
  obtain ⟨bq, bp, h1, h2, rest⟩ := hl
  exact ⟨bq, bp, hq.trans h1, hp.trans h2, rest⟩

/-- A chain of links carries over to another relation that agrees with it on
the members of the list. -/
theorem chain_of_mem_imp {R S : BlockPtr → BlockPtr → Prop} {l : List BlockPtr}
    (himp : ∀ q p, q ∈ l → p ∈ l → R q p → S q p) (hc : List.Chain' R l) :
    List.Chain' S l := by
  rw [List.chain'_iff_get] at hc ⊢
  intro i hi
  exact himp _ _ (List.get_mem _ _ _) (List.get_mem _ _ _) (hc i hi)

/-- The invariant of validated runs that never mine an appended block: the
first block is the genesis block with empty `PrevHash`, every block of the
chain is allocated, and consecutive blocks are linked. -/
theorem AppendOnlyReachable_invariant (e : Hasher) (h : Heap) (now : Time) (s : State)
    (hrun : AppendOnlyReachable e
      { heap := (NewBlockchain h now).1, chain := (NewBlockchain h now).2 } s) :
    s.chain.Blocks.head? = some h.length ∧
    (∃ g, s.heap.load h.length = .ok g ∧ g.PrevHash = []) ∧
    (∀ q ∈ s.chain.Blocks, ∃ x, s.heap.load q = .ok x) ∧
    List.Chain' (Linked s.heap) s.chain.Blocks := by
  induction hrun with
  | start =>
    have hg : Heap.load (h ++ [NewGenesisBlock now]) h.length = .ok (NewGenesisBlock now) := by
      simp [Heap.load]
    refine ⟨rfl, ⟨NewGenesisBlock now, hg, rfl⟩, ?_, ?_⟩
    · intro q hq
      simp only [NewBlockchain, Heap.alloc, List.mem_singleton] at hq
      subst hq
      exact ⟨_, hg⟩
    · exact List.chain'_singleton _
  | newBlock s data contracts prevHash now2 _ ih =>
    obtain ⟨hhead, ⟨g, hg, hgp⟩, hall, hchain⟩ := ih
    have hkeep : ∀ q ∈ s.chain.Blocks,
        (NewBlock s.heap data contracts prevHash now2).1.load q = s.heap.load q := by
      intro q hq
      obtain ⟨x, hx⟩ := hall q hq
      rw [hx]
      exact Heap.load_alloc_other _ _ _ _ hx
    refine ⟨hhead, ⟨g, Heap.load_alloc_other _ _ _ _ hg, hgp⟩, ?_, ?_⟩
    · intro q hq
      obtain ⟨x, hx⟩ := hall q hq
      exact ⟨x, (hkeep q hq).trans hx⟩
    · exact chain_of_mem_imp (fun q p hq hp hl =>
        Linked.of_load_eq _ _ q p (hkeep q hq) (hkeep p hp) hl) hchain
  | mineBlock s rnd fuel b d h' n _ hnot hret ih =>
    obtain ⟨hhead, ⟨g, hg, hgp⟩, hall, hchain⟩ := ih
    obtain ⟨blk, hblk, _, _, hh', _, _⟩ := MineBlock_returns e rnd fuel _ b d h' n hret
    have hkeep : ∀ q ∈ s.chain.Blocks, Heap.load h' q = s.heap.load q := by
      intro q hq
      have hqb : q ≠ b := fun hqb => hnot (hqb ▸ hq)
      rw [hh']
      exact Heap.load_set_other _ b q _ hqb
    have hmem : h.length ∈ s.chain.Blocks := List.mem_of_mem_head? hhead
    refine ⟨hhead, ⟨g, (hkeep _ hmem).trans hg, hgp⟩, ?_, ?_⟩
    · intro q hq
      obtain ⟨x, hx⟩ := hall q hq
      exact ⟨x, (hkeep q hq).trans hx⟩
    · exact chain_of_mem_imp (fun q p hq hp hl =>
        Linked.of_load_eq _ _ q p (hkeep q hq) (hkeep p hp) hl) hchain
  | addBlock s b _ hvalid ih =>
    obtain ⟨hhead, hgen, hall, hchain⟩ := ih
    obtain ⟨blk, tip, latest, hblk, htip, hlatest, _, hlink, hdata, hnonce⟩ :=
      Validate_nil_elim _ _ _ hvalid
    have htip' : s.chain.Blocks.getLast? = some tip :=
      (GetLatestBlock_ok_iff s.chain tip).mp htip
    refine ⟨?_, hgen, ?_, ?_⟩
    · show (s.chain.Blocks ++ [b]).head? = some h.length
      cases hbl : s.chain.Blocks with
      | nil => rw [hbl] at hhead; cases hhead
      | cons x xs => rw [hbl] at hhead; simpa using hhead
    · intro q hq
      have hq' : q ∈ s.chain.Blocks ++ [b] := hq
      rcases List.mem_append.mp hq' with hold | hnew
      · exact hall q hold
      · rw [List.mem_singleton] at hnew
        subst hnew
        exact ⟨blk, hblk⟩
    · show List.Chain' (Linked s.heap) (s.chain.Blocks ++ [b])
      rw [List.chain'_append]
      refine ⟨hchain, List.chain'_singleton _, ?_⟩
      intro x hx y hy
      rw [htip'] at hx
      simp only [Option.mem_def, Option.some.injEq] at hx
      simp only [List.head?_cons, Option.mem_def, Option.some.injEq] at hy
      subst hx
      subst hy
      exact ⟨latest, blk, hlatest, hblk, hlink, hdata, hnonce⟩

/-- Every run that never mines an appended block is a validated run. -/
theorem AppendOnlyReachable.validated (e : Hasher) (s0 s : State)
    (hrun : AppendOnlyReachable e s0 s) : ValidatedReachable e s0 s := by
  induction hrun with
  | start => exact ValidatedReachable.start
  | newBlock s data contracts prevHash now _ ih =>
    exact ValidatedReachable.newBlock s data contracts prevHash now ih
  | mineBlock s rnd fuel b d h' n _ _ hret ih =>
    exact ValidatedReachable.mineBlock s rnd fuel b d h' n ih hret
  | addBlock s b _ hvalid ih =>
    exact ValidatedReachable.addBlock s b ih hvalid

/-- C15, as stated, fails: from the created chain, `NewBlock`, `MineBlock` on
the new block, `Validate` succeeds, `AddBlock`; then `MineBlock` on the genesis
block, which is in the chain. Every block was appended after a successful
`Validate`, yet the block at position 1 has `PrevHash` `""` while the block at
position 0 now has a hash of 64 characters. -/
theorem validated_chain_unlinked_counterexample :
    ValidatedReachable sampleHasher createdState
      { heap := reminedHeap, chain := AddBlock sampleChain 1 } ∧
    Validate minedHeap (NewValidator sampleChain) 1 = .ok none ∧
    MineBlock sampleHasher sampleDraws 10 minedHeap 0 3 = .ok (some (reminedHeap, 3)) ∧
    (AddBlock sampleChain 1).Blocks = [0, 1] ∧
    (∃ b0 b1, reminedHeap.load 0 = .ok b0 ∧ reminedHeap.load 1 = .ok b1 ∧
      b1.PrevHash = [] ∧ b0.Hash.length = 64 ∧ b1.PrevHash ≠ b0.Hash) :=
  ⟨ValidatedReachable.mineBlock { heap := minedHeap, chain := AddBlock sampleChain 1 }
      sampleDraws 10 0 3 reminedHeap 3
      (ValidatedReachable.addBlock { heap := minedHeap, chain := sampleChain } 1
        (ValidatedReachable.mineBlock { heap := unminedHeap, chain := sampleChain }
          sampleDraws 10 1 3 minedHeap 3
          (ValidatedReachable.newBlock createdState [sampleTx] [] [] 1 ValidatedReachable.start)
          (by decide))
        (by decide))
      (by decide),
   by decide, by decide, by decide,
   ⟨(NewGenesisBlock 0).attempt sampleHasher 16, unminedBlock.attempt sampleHasher 16,
     by decide, by decide, by decide, by decide, by decide⟩⟩

/-- C15, amended: on every state reached from a chain `NewBlockchain` created
by steps in which a block is appended only after `Validate` succeeded on it
against the current chain and `MineBlock` is never called on a block already
in the chain, every block at a position `i + 1` has `PrevHash` equal to the
`Hash` of the block at position `i`, has a transaction and a nonce other than
0, and the block at position 0 is the genesis block, with empty `PrevHash`. -/
theorem append_only_chain_is_linked (e : Hasher) (h : Heap) (now : Time) (s : State)
    (hrun : AppendOnlyReachable e
      { heap := (NewBlockchain h now).1, chain := (NewBlockchain h now).2 } s) :
    (∃ g, s.chain.Blocks.get? 0 = some h.length ∧ s.heap.load h.length = .ok g ∧
      g.PrevHash = []) ∧
    ∀ i : Nat, i + 1 < s.chain.Blocks.length →
      ∃ q p bq bp, s.chain.Blocks.get? i = some q ∧ s.chain.Blocks.get? (i + 1) = some p ∧
        s.heap.load q = .ok bq ∧ s.heap.load p = .ok bp ∧
        bp.PrevHash = bq.Hash ∧ bp.Data ≠ [] ∧ bp.Nonce ≠ 0 := by
  obtain ⟨hhead, ⟨g, hg, hgp⟩, _, hchain⟩ := AppendOnlyReachable_invariant e h now s hrun
  constructor
  · refine ⟨g, ?_, hg, hgp⟩
    cases hbl : s.chain.Blocks with
    | nil => rw [hbl] at hhead; cases hhead
    | cons x xs => rw [hbl] at hhead; simpa using hhead
  · intro i hi
    have hi0 : i < s.chain.Blocks.length := by omega
    have hlink := List.chain'_iff_get.mp hchain i (by omega)
    obtain ⟨bq, bp, h1, h2, rest⟩ := hlink
    exact ⟨_, _, bq, bp, List.get?_eq_get hi0, List.get?_eq_get hi, h1, h2, rest⟩

/-- Witness for the amended C15: from the created chain, `NewBlock`, `MineBlock` on the
new block (accepted nonce 16), `Validate` succeeds, `AddBlock`. The chain then
has two blocks. -/
theorem append_only_chain_is_linked_witness :
    AppendOnlyReachable sampleHasher createdState
      { heap := minedHeap, chain := AddBlock sampleChain 1 } ∧
    (AddBlock sampleChain 1).Blocks.length = 2 ∧
    (∃ g, (AddBlock sampleChain 1).Blocks.get? 0 = some 0 ∧ minedHeap.load 0 = .ok g ∧
      g.PrevHash = []) ∧
    ∀ i : Nat, i + 1 < (AddBlock sampleChain 1).Blocks.length →
      ∃ q p bq bp, (AddBlock sampleChain 1).Blocks.get? i = some q ∧
        (AddBlock sampleChain 1).Blocks.get? (i + 1) = some p ∧
        minedHeap.load q = .ok bq ∧ minedHeap.load p = .ok bp ∧
        bp.PrevHash = bq.Hash ∧ bp.Data ≠ [] ∧ bp.Nonce ≠ 0 :=
  have hrun : AppendOnlyReachable sampleHasher createdState
      { heap := minedHeap, chain := AddBlock sampleChain 1 } :=
    AppendOnlyReachable.addBlock { heap := minedHeap, chain := sampleChain } 1
      (AppendOnlyReachable.mineBlock { heap := unminedHeap, chain := sampleChain }
        sampleDraws 10 1 3 minedHeap 3
        (AppendOnlyReachable.newBlock createdState [sampleTx] [] [] 1 AppendOnlyReachable.start)
        (by decide) (by decide))
      (by decide)
  ⟨hrun, by decide, append_only_chain_is_linked sampleHasher [] 0 _ hrun⟩

end Blockchaingo
